import Mathlib

set_option maxRecDepth 100000

/-!
# Verification of the QRIS EMV TLV codec (`src/utils/qris.ts`)

This file embeds the EMV TLV parser, builder, CRC16 engine and dynamic
payload transform of the repository's `src/utils/qris.ts` into Lean and
proves (or refutes) the specification's claims about them.

JavaScript strings are modelled as lists of UTF-16 code units
(`JStr := List Nat`), which is exactly the data model the ECMAScript
string operations (`slice`, `charCodeAt`, `length`) act on.  The handful
of ECMAScript built-ins the source uses (`String.prototype.slice`,
`parseInt`, `padStart`, `toFixed`, object property enumeration order,
`localeCompare`) are modelled from the ECMAScript specification; each
model carries a doc comment saying what it models.

`parseEmv` in the source is a `while` loop whose cursor is not
guaranteed to advance (the length field is `parseInt`-ed and may be
negative), so the embedding takes an explicit fuel parameter and
returns `none` when the fuel is exhausted; a run of the JavaScript
function terminates exactly when some fuel suffices.
-/

/-- A JavaScript string: its sequence of UTF-16 code units. -/
abbrev JStr := List Nat

/-- UTF-16 code units of one Unicode scalar value (surrogate pair when
    the scalar is outside the BMP). -/
def charUnits (c : Char) : List Nat :=
  if c.toNat < 65536 then [c.toNat]
  else [55296 + (c.toNat - 65536) / 1024, 56320 + (c.toNat - 65536) % 1024]

/-- UTF-16 code units of a Lean string literal, used to write concrete
    JavaScript strings in this file. -/
def strUnits (s : String) : JStr :=
  s.data.foldr (fun c acc => charUnits c ++ acc) []

/-- ECMAScript `ToIntegerOrInfinity`-then-clamp step used by
    `String.prototype.slice`: resolve a (finite, non-NaN) relative index
    against a string length. -/
def jsIdx (n : Nat) (r : Int) : Nat :=
  if r < 0 then ((n : Int) + r).toNat else min r.toNat n

/-- ECMAScript `String.prototype.slice(start, end)` on code units, for
    finite integer arguments.  (`NaN` arguments resolve to index `0`;
    call sites pass `0` explicitly in that case.) -/
def jsSlice (s : JStr) (a b : Int) : JStr :=
  (s.take (jsIdx s.length b)).drop (jsIdx s.length a)

/-- ECMAScript `StrWhiteSpaceChar` (the common members). -/
def isJsWs (u : Nat) : Bool :=
  u = 9 || u = 10 || u = 11 || u = 12 || u = 13 || u = 32 || u = 160 || u = 65279

/-- ASCII decimal digit code unit. -/
def isDigitU (u : Nat) : Bool := 48 ≤ u && u ≤ 57

/-- Numeric value of a list of ASCII digit code units. -/
def digitsVal (d : JStr) : Nat := d.foldl (fun a u => a * 10 + (u - 48)) 0

/-- ECMAScript `parseInt(s, 10)`: skip whitespace, optional sign, then
    the longest prefix of decimal digits; `none` models `NaN`. -/
def jsParseInt (s : JStr) : Option Int :=
  let core : JStr → Option Nat := fun r =>
    let d := r.takeWhile isDigitU
    if d.isEmpty then none else some (digitsVal d)
  match s.dropWhile isJsWs with
  | 43 :: r => (core r).map (fun n => (n : Int))
  | 45 :: r => (core r).map (fun n => -(n : Int))
  | r => (core r).map (fun n => (n : Int))

/-- The tag test `/^[0-9A-Za-z]{2}$/.test tag` from `parseEmv`. -/
def tagOk (t : JStr) : Bool :=
  t.length = 2 &&
  t.all (fun u => (48 ≤ u && u ≤ 57) || (65 ≤ u && u ≤ 90) || (97 ≤ u && u ≤ 122))

/-- The composite-tag condition of `parseEmv`:
    `tag === '62' || (parseInt(tag, 10) >= 26 && parseInt(tag, 10) <= 51)`. -/
def compositeTag (t : JStr) : Bool :=
  t = [54, 50] ||
  (match jsParseInt t with
   | some n => decide (26 ≤ n) && decide (n ≤ 51)
   | none => false)

/-- The value type `string | EmvMap` of the source's
    `EmvMap = Record<string, string | EmvMap>`; a JavaScript object is a
    list of key/value pairs in property-enumeration order. -/
inductive EmvVal : Type where
  | leaf : JStr → EmvVal
  | comp : List (JStr × EmvVal) → EmvVal
deriving Repr

mutual
/-- Structural equality test on `EmvVal` (kernel-computable). -/
def beqV : EmvVal → EmvVal → Bool
  | .leaf s, .leaf t => s = t
  | .comp m, .comp n => beqM m n
  | _, _ => false

/-- Structural equality test on entry lists (kernel-computable). -/
def beqM : List (JStr × EmvVal) → List (JStr × EmvVal) → Bool
  | [], [] => true
  | (k, v) :: r, (k2, v2) :: r2 => k = k2 && beqV v v2 && beqM r r2
  | _, _ => false
end

mutual
/-- `beqV` decides structural equality. -/
def beqV_iff : (a b : EmvVal) → (beqV a b = true ↔ a = b)
  | .leaf _, .leaf _ => by simp [beqV]
  | .leaf _, .comp _ => by simp [beqV]
  | .comp _, .leaf _ => by simp [beqV]
  | .comp m, .comp n => by
      have h := beqM_iff m n
      simp [beqV, h]

/-- `beqM` decides structural equality. -/
def beqM_iff : (a b : List (JStr × EmvVal)) → (beqM a b = true ↔ a = b)
  | [], [] => by simp [beqM]
  | [], _ :: _ => by simp [beqM]
  | _ :: _, [] => by simp [beqM]
  | (k, v) :: r, (k2, v2) :: r2 => by
      have h1 := beqV_iff v v2
      have h2 := beqM_iff r r2
      simp [beqM, h1, h2]
end

instance : DecidableEq EmvVal := fun a b => decidable_of_iff _ (beqV_iff a b)

/-- One level of an EMV tree: a JavaScript object in property order. -/
abbrev EmvMap := List (JStr × EmvVal)

/-- ECMAScript array-index key test: a canonical numeric string whose
    value is below 2^32 - 1.  Such keys enumerate before all other keys,
    in ascending numeric order. -/
def isArrayIndex (k : JStr) : Bool :=
  !k.isEmpty && k.all isDigitU && (k = [48] || k.headI ≠ 48) &&
  decide (digitsVal k < 4294967295)

/-- Property assignment `obj[k] = v` on a JavaScript object: an existing
    key keeps its place; a new array-index key is enumerated among the
    array-index keys in ascending numeric order; any other new key is
    appended after all existing keys. -/
def jsInsert : EmvMap → JStr → EmvVal → EmvMap
  | [], k, v => [(k, v)]
  | (k', v') :: r, k, v =>
    if k' = k then (k, v) :: r
    else if isArrayIndex k && (!isArrayIndex k' || digitsVal k < digitsVal k') then
      (k, v) :: (k', v') :: r
    else (k', v') :: jsInsert r k v

/-- Property read `obj[k]` (first — unique — matching key). -/
def emvLookup : EmvMap → JStr → Option EmvVal
  | [], _ => none
  | (k', v') :: r, k => if k' = k then some v' else emvLookup r k

/-- The units of the tag string `"63"`. -/
def t63 : JStr := [54, 51]
/-- The units of the tag string `"62"`. -/
def t62 : JStr := [54, 50]
/-- The units of the tag string `"54"`. -/
def t54 : JStr := [53, 52]
/-- The units of the tag string `"01"`. -/
def t01 : JStr := [48, 49]

/-- The `while` loop of the source's `parseEmv`, with explicit fuel.
    State: the payload `p`, the cursor `i` (an exact integer; the one
    way the JavaScript cursor becomes `NaN` — a non-numeric length
    field — makes the loop end right after storing the current entry,
    and is modelled by returning in that branch), and the map built so
    far.  Returns `none` when the fuel is exhausted. -/
def parseEmvGo : Nat → JStr → Int → EmvMap → Option EmvMap
  | 0, _, _, _ => none
  | fuel + 1, p, i, m =>
    if i < (p.length : Int) then
      let tag := jsSlice p i (i + 2)
      if tagOk tag then
        match jsParseInt (jsSlice p (i + 2) (i + 4)) with
        | some len =>
          let value := jsSlice p (i + 4) (i + 4 + len)
          if compositeTag tag then
            match parseEmvGo fuel value 0 [] with
            | some sub =>
              let m2 := jsInsert m tag (.comp sub)
              if tag = t63 then some m2 else parseEmvGo fuel p (i + 4 + len) m2
            | none => none
          else
            let m2 := jsInsert m tag (.leaf value)
            if tag = t63 then some m2 else parseEmvGo fuel p (i + 4 + len) m2
        | none =>
          let value := jsSlice p (i + 4) 0
          if compositeTag tag then
            match parseEmvGo fuel value 0 [] with
            | some sub => some (jsInsert m tag (.comp sub))
            | none => none
          else some (jsInsert m tag (.leaf value))
      else some m
    else some m

/-- The source's `parseEmv(payload)`, with explicit fuel. -/
def parseEmv (fuel : Nat) (payload : JStr) : Option EmvMap :=
  parseEmvGo fuel payload 0 []

/-- `parseEmv` terminates on `payload` with result `m` for some fuel. -/
def ParsesTo (payload : JStr) (m : EmvMap) : Prop :=
  ∃ fuel, parseEmv fuel payload = some m

/-- Fuel-indexed digit accumulator for `natDecimal`; `fuel = n + 1`
    always suffices since the argument shrinks by a factor of 10. -/
def natDecimalAux : Nat → Nat → JStr
  | 0, _ => []
  | fuel + 1, n => if n < 10 then [48 + n] else natDecimalAux fuel (n / 10) ++ [48 + n % 10]

/-- Decimal digit units of a natural number (JavaScript
    `Number.prototype.toString` for integers). -/
def natDecimal (n : Nat) : JStr := natDecimalAux (n + 1) n

/-- The source's `padLen`: `n.toString().padStart(2, '0')`. -/
def padLen (n : Nat) : JStr :=
  List.replicate (2 - (natDecimal n).length) 48 ++ natDecimal n

mutual
/-- The source's `buildValue`: a leaf verbatim, a composite by
    concatenating its sub-TLVs in property-enumeration order. -/
def buildValue : EmvVal → JStr
  | .leaf s => s
  | .comp m => buildEntries m

/-- The `for (const [t, v] of Object.entries(val))` loop of
    `buildValue`: emit `t + padLen(v.length) + v` per entry, in order. -/
def buildEntries : EmvMap → JStr
  | [] => []
  | (t, v) :: r => t ++ padLen (buildValue v).length ++ buildValue v ++ buildEntries r
end

/-- Primary collation weight of a code unit under the default-locale
    collator that `String.prototype.localeCompare` uses (ICU root):
    ASCII letters compare case-insensitively, digits sort before
    letters.  Modelled for the ASCII alphanumeric strings used as tags. -/
def primaryW (u : Nat) : Nat := if 65 ≤ u && u ≤ 90 then u + 32 else u

/-- Case (tertiary) collation weight: lowercase before uppercase. -/
def tertW (u : Nat) : Nat := if 65 ≤ u && u ≤ 90 then 1 else 0

/-- Lexicographic comparison of unit lists by a weight function. -/
def cmpBy (w : Nat → Nat) : JStr → JStr → Ordering
  | [], [] => .eq
  | [], _ :: _ => .lt
  | _ :: _, [] => .gt
  | a :: as, b :: bs =>
    if w a < w b then .lt else if w b < w a then .gt else cmpBy w as bs

/-- `a.localeCompare(b)` under the default locale (ICU root collation),
    modelled for ASCII alphanumeric strings: primary weights first,
    then case. -/
def jsLocaleCompare (a b : JStr) : Int :=
  match cmpBy primaryW a b with
  | .lt => -1
  | .gt => 1
  | .eq =>
    match cmpBy tertW a b with
    | .lt => -1
    | .gt => 1
    | .eq => 0

/-- Stable insertion of one entry into a list sorted by the comparator
    `(a, b) => a[0].localeCompare(b[0])`. -/
def insSorted (x : JStr × EmvVal) : EmvMap → EmvMap
  | [] => [x]
  | y :: r => if jsLocaleCompare x.1 y.1 < 0 then x :: y :: r else y :: insSorted x r

/-- `entries.sort((a, b) => a[0].localeCompare(b[0]))` — a stable sort
    by the comparator, as ECMAScript `Array.prototype.sort` requires. -/
def sortEntries (l : EmvMap) : EmvMap := l.foldr insSorted []

/-- One shift/xor round of the CRC16 inner loop, including the
    `crc &= 0xffff` that follows it. -/
def crcRound (c : Nat) : Nat :=
  if c &&& 32768 ≠ 0 then ((c <<< 1) ^^^ 4129) &&& 65535 else (c <<< 1) &&& 65535

/-- The eight inner-loop rounds per character. -/
def crcEight (c : Nat) : Nat :=
  crcRound (crcRound (crcRound (crcRound (crcRound (crcRound (crcRound (crcRound c)))))))

/-- The per-character step of `crc16Ccitt`: `crc ^= charCode << 8`
    followed by the eight rounds. -/
def crcStep (crc u : Nat) : Nat := crcEight (crc ^^^ (u <<< 8))

/-- The numeric CRC register after processing all characters. -/
def crcVal (s : JStr) : Nat := s.foldl crcStep 65535

/-- Lowercase hexadecimal digit unit. -/
def hexDigitU (n : Nat) : Nat := if n < 10 then 48 + n else 87 + n

/-- Fuel-indexed accumulator for `natHex`; `fuel = n + 1` suffices. -/
def natHexAux : Nat → Nat → JStr
  | 0, _ => []
  | fuel + 1, n => if n < 16 then [hexDigitU n] else natHexAux fuel (n / 16) ++ [hexDigitU (n % 16)]

/-- JavaScript `n.toString(16)` for a non-negative integer: lowercase
    hex without leading zeros. -/
def natHex (n : Nat) : JStr := natHexAux (n + 1) n

/-- The source's `crc16Ccitt(str)`:
    `crc.toString(16).padStart(4, '0')` over the folded register. -/
def crc16Ccitt (s : JStr) : JStr :=
  List.replicate (4 - (natHex (crcVal s)).length) 48 ++ natHex (crcVal s)

/-- `String.prototype.toUpperCase` restricted to ASCII (all the builder
    ever uppercases are hexadecimal digits). -/
def jsToUpper (s : JStr) : JStr :=
  s.map (fun u => if 97 ≤ u && u ≤ 122 then u - 32 else u)

/-- The `payloadNoCRC` accumulated by the source's `buildEmv`: entries
    without tag `63`, sorted by `localeCompare` of the tags, each
    emitted as `tag + padLen(value.length) + value`. -/
def buildNoCRC (m : EmvMap) : JStr :=
  buildEntries (sortEntries (m.filter (fun e => e.1 ≠ t63)))

/-- The source's `buildEmv(map)`: the sorted non-CRC entries, the
    literal `6304` placeholder, and the uppercased CRC16 over the
    string including the placeholder. -/
def buildEmv (m : EmvMap) : JStr :=
  buildNoCRC m ++ t63 ++ padLen 4 ++ jsToUpper (crc16Ccitt (buildNoCRC m ++ t63 ++ padLen 4))

/-- `amount.toFixed(2)` modelled on exact decimal numbers (rationals):
    round `100 * |x|` half-up per the ECMAScript `toFixed` rounding rule
    ("if there are two such n, pick the larger n"), then render with a
    sign, an integer part and exactly two fraction digits.  The
    JavaScript argument is a binary double; for the amounts the claims
    use (at most two decimal places, moderate magnitude) the double is
    exact and `toFixed(2)` agrees with this exact-decimal rendering. -/
def toFixed2 (q : ℚ) : JStr :=
  let render : ℚ → JStr := fun x =>
    let n : Nat := (Int.floor (x * 100 + 1 / 2)).toNat
    natDecimal (n / 100) ++ [46] ++ padLen (n % 100)
  if q < 0 then 45 :: render (-q) else render q

/-- `s.replace(/\.00$/, '')`: strip one literal trailing `.00`. -/
def stripDot00 (s : JStr) : JStr :=
  if s.length ≥ 3 && s.drop (s.length - 3) = [46, 48, 48] then s.take (s.length - 3) else s

/-- The `amountStr` of `generateDynamicQRISPayload`:
    `amount.toFixed(2).replace(/\.00$/, '')`. -/
def dynamicAmountStr (q : ℚ) : JStr := stripDot00 (toFixed2 q)

/-- The tree mutation performed by `generateDynamicQRISPayload` between
    its parse and its build: set tag `01` to `"12"`, set tag `54` to the
    amount string, and force tag `62` to a composite, adding sub-tag
    `01` when a (truthy, i.e. non-empty) reference is given. -/
def dynamicTree (emv : EmvMap) (amountStr : JStr) (reference : Option JStr) : EmvMap :=
  let emv1 := jsInsert emv t01 (.leaf [49, 50])
  let emv2 := jsInsert emv1 t54 (.leaf amountStr)
  let addl := match emvLookup emv2 t62 with
    | some (.comp m) => m
    | _ => []
  let addl2 := match reference with
    | some r => if r.isEmpty then addl else jsInsert addl t01 (.leaf r)
    | none => addl
  jsInsert emv2 t62 (.comp addl2)

/-- The source's `generateDynamicQRISPayload(basePayload, amount,
    reference?)`, with the parse fuel explicit; `none` when the parse
    of the base payload does not terminate within the fuel. -/
def generateDynamicQRISPayload (fuel : Nat) (basePayload : JStr) (amount : ℚ)
    (reference : Option JStr) : Option JStr :=
  (parseEmv fuel basePayload).map
    (fun emv => buildEmv (dynamicTree emv (dynamicAmountStr amount) reference))

/-- Whether a value is the composite (object) alternative — the
    source's `typeof v === 'object'` discrimination. -/
def isCompV : EmvVal → Bool
  | .leaf _ => false
  | .comp _ => true

/-- Assign a list of entries into a JavaScript object one by one
    (left to right), starting from `m`. -/
def insertAll (m : EmvMap) (es : EmvMap) : EmvMap :=
  es.foldl (fun acc e => jsInsert acc e.1 e.2) m

mutual
/-- Well-formedness of a value for the build/parse round trip: a leaf
    is always fine; a composite's entries must be well formed and the
    map must be reproduced when its entries are re-assigned one by one
    into a fresh object (i.e. it is in JavaScript property order, which
    every map produced by `parseEmv` is). -/
def wfVal : EmvVal → Bool
  | .leaf _ => true
  | .comp m => wfEntries m && beqM (insertAll [] m) m

/-- Well-formedness of an entry list: 2-character alphanumeric tags,
    no tag `63`, composite values exactly at composite tags, serialized
    values of at most 99 units, distinct tags, recursively well-formed
    values. -/
def wfEntries : EmvMap → Bool
  | [] => true
  | (k, v) :: r =>
    tagOk k && decide (k ≠ t63) && (isCompV v == compositeTag k) &&
    decide ((buildValue v).length ≤ 99) && wfVal v &&
    r.all (fun e => decide (e.1 ≠ k)) && wfEntries r
end

/-- A top-level tree the builder's output re-parses to exactly: well
    formed, and reproduced when its entries are re-assigned in the
    builder's (sorted) emission order. -/
def canonicalTree (t : EmvMap) : Bool :=
  wfEntries t && beqM (insertAll [] (sortEntries t)) t

mutual
/-- At every level, a value is composite exactly when required. -/
def wellTypedV : EmvVal → Bool
  | .leaf _ => true
  | .comp m => wellTypedM m

/-- Every entry of the tree, at every nesting level, stores a Composite
    node exactly at the composite tags (`62` and numeric `26`–`51`) and
    a Leaf everywhere else. -/
def wellTypedM : EmvMap → Bool
  | [] => true
  | (k, v) :: r => (isCompV v == compositeTag k) && wellTypedV v && wellTypedM r
end

/-- The CRC trailer `buildEmv` appends for a given map. -/
def crcTrailer (m : EmvMap) : JStr :=
  jsToUpper (crc16Ccitt (buildNoCRC m ++ t63 ++ padLen 4))

/-- Lowercase hexadecimal digit unit test. -/
def isHexLowerU (u : Nat) : Bool := isDigitU u || (97 ≤ u && u ≤ 102)

/-- Modelled from the spec: ascending "ordinal/byte-wise" comparison of
    tag strings — code-unit-wise lexicographic order.  This is the
    ordering the specification asserts for the builder; it is compared
    against the source's `localeCompare`-based ordering. -/
def specByteLt (a b : JStr) : Bool := cmpBy id a b = Ordering.lt

/-- Modelled from the spec: stable insertion into a list sorted by the
    byte-wise tag order. -/
def specByteInsert (x : JStr × EmvVal) : EmvMap → EmvMap
  | [] => [x]
  | y :: r => if specByteLt x.1 y.1 then x :: y :: r else y :: specByteInsert x r

/-- Modelled from the spec: the entry list sorted by ascending
    byte-wise comparison of the tags. -/
def specByteSort (l : EmvMap) : EmvMap := l.foldr specByteInsert []

/-- All-decimal-digit tag. -/
def digitTag (k : JStr) : Bool := k.all isDigitU

/-- The value stored at sub-tag `01` of the composite at tag `62`, if
    any — the slot `generateDynamicQRISPayload` writes the reference
    into. -/
def sub01of62 (m : EmvMap) : Option EmvVal :=
  match emvLookup m t62 with
  | some (.comp s) => emvLookup s t01
  | _ => none

/-- Filler block of the adversarial base payload: 80 units, the eighth
    of which is a dot (so the re-parse of the built payload stops right
    after the misaligned tag `62` value). -/
def evilFiller : String := "AAAAAAA." ++ String.mk (List.replicate 72 'A')

/-- The 99-unit value of tag `62` in the adversarial base payload.  Its
    sub-parse reads entry `ZA` (length 90), then walks backwards twice
    via the negative length field `-9` (JavaScript `slice` resolves the
    resulting negative cursor against the end of the string), reading
    entries `ZB` and `ZC` with empty values, and finally reads entry
    `ZD` (declared length 90, 11 units available) — so the four decoded
    entries re-serialize to 128 > 99 units and the rebuilt tag `62`
    gets a 3-digit length field that the re-parse misreads. -/
def evilV : String := "ZA90" ++ evilFiller ++ "ZD90KZC-9MZB-9N"

/-- The adversarial base payload `"6299" ++ evilV`. -/
def evilBase : JStr := strUnits ("6299" ++ evilV)

/-- The 90-unit value of sub-entry `ZA` of the adversarial payload. -/
def evilZAval : JStr := strUnits (evilFiller ++ "ZD90KZC-9M")

/-- The sub-tree `parseEmv` decodes for tag `62` of `evilBase`. -/
def evilSub : EmvMap :=
  [(strUnits "ZA", .leaf evilZAval), (strUnits "ZB", .leaf []),
   (strUnits "ZC", .leaf []), (strUnits "ZD", .leaf (strUnits "KZC-9MZB-9N"))]

/-- The tree `parseEmv` decodes for `evilBase`. -/
def evilT0 : EmvMap := [(t62, .comp evilSub)]

/-- The mutated tree `generateDynamicQRISPayload` builds from
    `evilT0` with amount 15000 and reference `"ORD-001"`. -/
def evilT1 : EmvMap :=
  [(t54, .leaf (strUnits "15000")),
   (t62, .comp (evilSub ++ [(t01, .leaf (strUnits "ORD-001"))])),
   (t01, .leaf (strUnits "12"))]

/-- The non-CRC prefix of the payload built from `evilT1`; note the
    3-digit length field `128` after the tag `62`. -/
def evilQ : JStr :=
  strUnits "01021254051500062128ZA90" ++ evilZAval ++
  strUnits "ZB00ZC00ZD11KZC-9MZB-9N0107ORD-001"

/-- The full payload built from `evilT1`. -/
def evilOut : JStr := evilQ ++ strUnits "6304C9CB"

/-- The tree the re-parse of `evilOut` decodes: tag `62` holds the
    garbage sub-tree `8Z ↦ ""`, not the reference. -/
def evilM : EmvMap :=
  [(t54, .leaf (strUnits "15000")), (t62, .comp [(strUnits "8Z", .leaf [])]),
   (t01, .leaf (strUnits "12"))]

/-- Chunks of the checksummed string `evilQ ++ "6304"`, used to keep
    each CRC evaluation step small. -/
def crcC1 : JStr := strUnits "01021254051500062128ZA90AAAAAAA.AAAAAAAA"
/-- Second CRC chunk. -/
def crcC2 : JStr := strUnits (String.mk (List.replicate 40 'A'))
/-- Third CRC chunk. -/
def crcC3 : JStr := strUnits (String.mk (List.replicate 24 'A') ++ "ZD90KZC-9MZB00ZC")
/-- Fourth CRC chunk. -/
def crcC4 : JStr := strUnits "00ZD11KZC-9MZB-9N0107ORD-0016304"


/-! ## Helper lemmas -/

theorem emvLookup_jsInsert_self (m : EmvMap) (k : JStr) (v : EmvVal) :
    emvLookup (jsInsert m k v) k = some v := by
  induction m with
  | nil => simp [jsInsert, emvLookup]
  | cons e r ih =>
    obtain ⟨k', v'⟩ := e
    by_cases h : k' = k
    · simp [jsInsert, emvLookup, h]
    · simp only [jsInsert, if_neg h]
      split
      · simp [emvLookup]
      · simp [emvLookup, h, ih]

theorem emvLookup_jsInsert_ne (m : EmvMap) (k : JStr) (v : EmvVal) (k₂ : JStr)
    (hk : k₂ ≠ k) : emvLookup (jsInsert m k v) k₂ = emvLookup m k₂ := by
  induction m with
  | nil => simp [jsInsert, emvLookup, Ne.symm hk]
  | cons e r ih =>
    obtain ⟨k', v'⟩ := e
    by_cases h : k' = k
    · subst h
      simp [jsInsert, emvLookup, Ne.symm hk]
    · simp only [jsInsert, if_neg h]
      split
      · simp [emvLookup, Ne.symm hk]
      · simp [emvLookup, ih]

theorem emvLookup_mem {m : EmvMap} {k : JStr} {v : EmvVal}
    (h : emvLookup m k = some v) : (k, v) ∈ m := by
  induction m with
  | nil => simp [emvLookup] at h
  | cons e r ih =>
    obtain ⟨k', v'⟩ := e
    by_cases hk : k' = k
    · subst hk
      simp [emvLookup] at h
      simp [h]
    · simp [emvLookup, hk] at h
      simp [ih h]

theorem dynamicAmountStr_15000 : dynamicAmountStr (15000 : ℚ) = strUnits "15000" := by
  have h0 : ¬ ((15000 : ℚ) < 0) := by norm_num
  have h1 : (Int.floor ((15000 : ℚ) * 100 + 1 / 2)) = 1500000 := by
    norm_num [Int.floor_eq_iff]
  simp only [dynamicAmountStr, toFixed2, h0, if_false, h1]
  decide

theorem dynamicAmountStr_half : dynamicAmountStr (10.5 : ℚ) = strUnits "10.50" := by
  have h0 : ¬ ((10.5 : ℚ) < 0) := by norm_num
  have h1 : (Int.floor ((10.5 : ℚ) * 100 + 1 / 2)) = 1050 := by
    norm_num [Int.floor_eq_iff]
  simp only [dynamicAmountStr, toFixed2, h0, if_false, h1]
  decide

theorem crcRound_le (c : Nat) : crcRound c ≤ 65535 := by
  unfold crcRound
  split <;> exact Nat.and_le_right

theorem crcStep_le (c u : Nat) : crcStep c u ≤ 65535 := by
  unfold crcStep crcEight
  exact crcRound_le _

theorem crcVal_le (s : JStr) : crcVal s ≤ 65535 := by
  have h : ∀ (l : JStr) (a : Nat), a ≤ 65535 → List.foldl crcStep a l ≤ 65535 := by
    intro l
    induction l with
    | nil => intro a ha; simpa using ha
    | cons u r ih => intro a _; simpa using ih (crcStep a u) (crcStep_le a u)
  exact h s 65535 le_rfl

theorem natHexAux_length : ∀ (fuel n k : Nat), 1 ≤ k → n < 16 ^ k →
    (natHexAux fuel n).length ≤ k := by
  intro fuel
  induction fuel with
  | zero => intro n k h1 _; simp [natHexAux]
  | succ f ih =>
    intro n k h1 h2
    unfold natHexAux
    split
    · simpa using h1
    · rename_i hn
      have hk : 2 ≤ k := by
        by_contra hlt
        have hk1 : k = 1 := by omega
        subst hk1
        simp at h2
        omega
      have hdiv : n / 16 < 16 ^ (k - 1) := by
        have h16 : 16 ^ (k - 1) * 16 = 16 ^ k := by
          have : k - 1 + 1 = k := by omega
          calc 16 ^ (k - 1) * 16 = 16 ^ (k - 1 + 1) := by ring
            _ = 16 ^ k := by rw [this]
        refine Nat.div_lt_of_lt_mul ?_
        omega
      have := ih (n / 16) (k - 1) (by omega) hdiv
      simp only [List.length_append, List.length_singleton]
      omega

theorem hexDigitU_hex : ∀ n < 16, isHexLowerU (hexDigitU n) = true := by decide

theorem natHexAux_hex : ∀ (fuel n u : Nat), u ∈ natHexAux fuel n → isHexLowerU u = true := by
  intro fuel
  induction fuel with
  | zero => intro n u hu; simp [natHexAux] at hu
  | succ f ih =>
    intro n u hu
    unfold natHexAux at hu
    split at hu
    · rename_i hn
      rw [List.mem_singleton.mp hu]
      exact hexDigitU_hex n hn
    · rcases List.mem_append.mp hu with h | h
      · exact ih _ _ h
      · rw [List.mem_singleton.mp h]
        exact hexDigitU_hex (n % 16) (Nat.mod_lt _ (by omega))

theorem crc16Ccitt_length (s : JStr) : (crc16Ccitt s).length = 4 := by
  have h16 : (16 : Nat) ^ 4 = 65536 := by norm_num
  have hlen : (natHex (crcVal s)).length ≤ 4 := by
    unfold natHex
    exact natHexAux_length _ _ 4 (by omega) (by have := crcVal_le s; omega)
  unfold crc16Ccitt
  simp only [List.length_append, List.length_replicate]
  omega

theorem crc16Ccitt_hex (s : JStr) : ∀ u ∈ crc16Ccitt s, isHexLowerU u = true := by
  intro u hu
  unfold crc16Ccitt at hu
  rcases List.mem_append.mp hu with h | h
  · rw [List.eq_of_mem_replicate h]
    decide
  · exact natHexAux_hex _ _ u h

theorem jsSlice_start_ge (p : JStr) (a b : Int) (ha : (p.length : Int) ≤ a) :
    jsSlice p a b = [] := by
  have h0 : ¬ (a < 0) := by omega
  have hidx : jsIdx p.length a = p.length := by
    simp only [jsIdx, if_neg h0]
    omega
  simp only [jsSlice, hidx]
  exact List.drop_eq_nil_of_le (by simp)

theorem jsSlice_to_zero (p : JStr) (a : Int) : jsSlice p a 0 = [] := by
  simp [jsSlice, jsIdx]

theorem parseEmvGo_stop (f : Nat) (p : JStr) (i : Int) (m : EmvMap)
    (h : ¬ i < (p.length : Int)) : parseEmvGo (f + 1) p i m = some m := by
  simp [parseEmvGo, h]

theorem jsParseInt_single_nonneg (c : Nat) (d : Int)
    (h : jsParseInt [c] = some d) : 0 ≤ d := by
  have hlen : (([c] : JStr).dropWhile isJsWs).length ≤ 1 := by
    by_cases hws : isJsWs c = true <;> simp [List.dropWhile, hws]
  simp only [jsParseInt] at h
  split at h
  · rename_i r heq
    split at h
    · simp at h
    · simp at h
      omega
  · rename_i r heq
    have hr : r = [] := by
      rw [heq] at hlen
      simpa using hlen
    subst hr
    simp at h
  · split at h
    · simp at h
    · simp at h
      omega

/-! ## Claim C5 -/

/-- C5: `crc16Ccitt` applied to `"123456789"` returns the
    CRC-16/CCITT-FALSE check value `0x29B1` as the lowercase hex string
    `"29b1"`, and for every input the result is exactly 4 lowercase
    hexadecimal characters, zero-padded. -/
theorem crc16Ccitt_check_vector_and_format :
    crc16Ccitt (strUnits "123456789") = strUnits "29b1" ∧
    ∀ s : JStr, (crc16Ccitt s).length = 4 ∧ ∀ u ∈ crc16Ccitt s, isHexLowerU u = true :=
  ⟨by decide, fun s => ⟨crc16Ccitt_length s, crc16Ccitt_hex s⟩⟩

/-- Witness for C5 at a concrete input. -/
theorem crc16Ccitt_check_vector_and_format_witness :
    (crc16Ccitt (strUnits "6304")).length = 4 :=
  (crc16Ccitt_check_vector_and_format.2 (strUnits "6304")).1

/-! ## Claim C6 -/

/-- C6 counterexample: the payload `"99"` leaves a 2-character suffix
    that is a valid tag; the claim says `parseEmv` stops without
    consuming it and adds no entry, but the source consumes it and
    stores `"99" ↦ ""` (the length field `parseInt`s to `NaN`, the
    value slice resolves to the empty string, and the cursor becomes
    `NaN`, ending the loop after the entry is stored). -/
theorem parseEmv_short_suffix_cex :
    parseEmv 1 (strUnits "99") = some [(strUnits "99", EmvVal.leaf [])] ∧
    parseEmv 1 (strUnits "99") ≠ some [] := by
  constructor <;> decide

/-- C6 (amended): the scanning loop runs while the cursor is below the
    payload length and the next two characters form a valid tag; a
    remaining suffix of 2 or 3 characters whose first two characters
    form a valid tag IS consumed: the tag is stored with an empty value
    (an empty Composite at the composite tags `62` and `26`–`51`, the
    empty string elsewhere, tag `63` included), and parsing then stops
    (the cursor passes the end of the payload or becomes `NaN`). -/
theorem parseEmv_short_suffix (fuel : Nat) (p : JStr) (i : Int) (m : EmvMap)
    (h0 : 0 ≤ i)
    (hlen : i + 2 = (p.length : Int) ∨ i + 3 = (p.length : Int))
    (htag : tagOk (jsSlice p i (i + 2)) = true) :
    parseEmvGo (fuel + 2) p i m
      = some (jsInsert m (jsSlice p i (i + 2))
          (if compositeTag (jsSlice p i (i + 2)) = true then EmvVal.comp []
           else EmvVal.leaf [])) := by
  have hsub : parseEmvGo (fuel + 1) ([] : JStr) 0 [] = some [] :=
    parseEmvGo_stop fuel [] 0 [] (by simp)
  have hpi0 : jsParseInt ([] : JStr) = none := rfl
  rcases hlen with hlen | hlen
  · -- two characters remain: the length field slice is empty, so parseInt is NaN
    have hlt : i < (p.length : Int) := by omega
    have hnil : jsSlice p (i + 2) (i + 4) = [] := jsSlice_start_ge _ _ _ (by omega)
    by_cases hcomp : compositeTag (jsSlice p i (i + 2)) = true
    · show parseEmvGo (fuel + 1 + 1) p i m = _
      rw [parseEmvGo]
      simp only [if_pos hlt, htag, if_true, hnil, hpi0, hcomp, jsSlice_to_zero,
        hsub, if_true]
    · have hcompf : compositeTag (jsSlice p i (i + 2)) = false := by
        simpa using hcomp
      show parseEmvGo (fuel + 1 + 1) p i m = _
      rw [parseEmvGo]
      simp only [if_pos hlt, htag, if_true, hnil, hpi0, hcompf, jsSlice_to_zero,
        Bool.false_eq_true, if_false]
  · -- three characters remain: the length field is the single last character,
    -- so it parses to NaN or to a non-negative single digit, and the value
    -- slice starts past the end of the payload either way
    have hlt : i < (p.length : Int) := by omega
    have hvalue : ∀ b : Int, jsSlice p (i + 4) b = [] :=
      fun b => jsSlice_start_ge _ _ _ (by omega)
    have hs1 : ∃ c, jsSlice p (i + 2) (i + 4) = [c] := by
      rw [← List.length_eq_one]
      simp only [jsSlice, jsIdx]
      rw [if_neg (by omega), if_neg (by omega)]
      simp only [List.length_drop, List.length_take]
      omega
    obtain ⟨c, hc⟩ := hs1
    cases hpi : jsParseInt (jsSlice p (i + 2) (i + 4)) with
    | none =>
      by_cases hcomp : compositeTag (jsSlice p i (i + 2)) = true
      · show parseEmvGo (fuel + 1 + 1) p i m = _
        rw [parseEmvGo]
        simp only [if_pos hlt, htag, if_true, hpi, hcomp, jsSlice_to_zero,
          hsub, if_true]
      · have hcompf : compositeTag (jsSlice p i (i + 2)) = false := by
          simpa using hcomp
        show parseEmvGo (fuel + 1 + 1) p i m = _
        rw [parseEmvGo]
        simp only [if_pos hlt, htag, if_true, hpi, hcompf, jsSlice_to_zero,
          Bool.false_eq_true, if_false]
    | some d =>
      have hd0 : 0 ≤ d := jsParseInt_single_nonneg c d (hc ▸ hpi)
      by_cases hcomp : compositeTag (jsSlice p i (i + 2)) = true
      · have hend : parseEmvGo (fuel + 1) p (i + 4 + d)
            (jsInsert m (jsSlice p i (i + 2)) (EmvVal.comp []))
            = some (jsInsert m (jsSlice p i (i + 2)) (EmvVal.comp [])) :=
          parseEmvGo_stop fuel p _ _ (by omega)
        show parseEmvGo (fuel + 1 + 1) p i m = _
        rw [parseEmvGo]
        simp only [if_pos hlt, htag, if_true, hpi, hcomp, hvalue, hsub,
          if_true, hend, ite_self]
      · have hcompf : compositeTag (jsSlice p i (i + 2)) = false := by
          simpa using hcomp
        have hend : parseEmvGo (fuel + 1) p (i + 4 + d)
            (jsInsert m (jsSlice p i (i + 2)) (EmvVal.leaf []))
            = some (jsInsert m (jsSlice p i (i + 2)) (EmvVal.leaf [])) :=
          parseEmvGo_stop fuel p _ _ (by omega)
        show parseEmvGo (fuel + 1 + 1) p i m = _
        rw [parseEmvGo]
        simp only [if_pos hlt, htag, if_true, hpi, hcompf, hvalue,
          Bool.false_eq_true, if_false, hend, ite_self]

/-- Witness for C6 (amended) at the payload `"620"`: a 3-character
    suffix whose tag `62` is composite — stored as an empty Composite. -/
theorem parseEmv_short_suffix_witness :
    parseEmvGo 2 (strUnits "620") 0 []
      = some (jsInsert [] (jsSlice (strUnits "620") 0 (0 + 2))
          (if compositeTag (jsSlice (strUnits "620") 0 (0 + 2)) = true then EmvVal.comp []
           else EmvVal.leaf [])) :=
  parseEmv_short_suffix 0 (strUnits "620") 0 [] (by decide) (Or.inr (by decide)) (by decide)

/-! ## Claim C8 -/

/-- The parse cursor cycles forever on `"AB01vXY-9"`: from 0 it reads
    entry `AB` (length 1) and moves to 5; from 5 it reads entry `XY`
    whose length field is `-9`, so the cursor moves to `9 - 9 = 0`. -/
theorem parseEmvGo_loop_cycle : ∀ (fuel : Nat) (m : EmvMap),
    parseEmvGo fuel (strUnits "AB01vXY-9") 0 m = none ∧
    parseEmvGo fuel (strUnits "AB01vXY-9") 5 m = none := by
  intro fuel
  induction fuel with
  | zero => intro m; exact ⟨rfl, rfl⟩
  | succ f ih =>
    intro m
    constructor
    · exact (ih (jsInsert m (strUnits "AB") (EmvVal.leaf (strUnits "v")))).2
    · exact (ih (jsInsert m (strUnits "XY") (EmvVal.leaf []))).1

/-- C8: the claim that `parseEmv` terminates on every input is right
    about the intent but wrong about the code: on the payload
    `"AB01vXY-9"` the source's `while` loop runs forever (no fuel
    suffices), because a parsed length of `-9` moves the cursor
    backwards to its previous position. -/
theorem parseEmv_nontermination : ∀ fuel : Nat, parseEmv fuel (strUnits "AB01vXY-9") = none :=
  fun fuel => (parseEmvGo_loop_cycle fuel []).1

/-! ## Claim C9 -/

/-- C9: the amount is formatted with exactly 2 fraction digits and only
    a literal trailing `".00"` is stripped: amount `10.5` yields tag
    `54` value `"10.50"`, amount `15000` yields `"15000"`; and for
    every parsed tree, amount and reference, the mutated tree stores
    the formatted amount string at tag `54`. -/
theorem dynamicAmountStr_spec :
    dynamicAmountStr (10.5 : ℚ) = strUnits "10.50" ∧
    dynamicAmountStr (15000 : ℚ) = strUnits "15000" ∧
    ∀ (t0 : EmvMap) (a : ℚ) (ref : Option JStr),
      emvLookup (dynamicTree t0 (dynamicAmountStr a) ref) t54
        = some (EmvVal.leaf (dynamicAmountStr a)) := by
  refine ⟨dynamicAmountStr_half, dynamicAmountStr_15000, ?_⟩
  intro t0 a ref
  simp only [dynamicTree]
  rw [emvLookup_jsInsert_ne _ _ _ _ (by decide)]
  exact emvLookup_jsInsert_self _ _ _

/-! ## Counterexamples for claims C1–C4 -/

/-- C1 counterexample: for the adversarial base payload `evilBase`,
    `generateDynamicQRISPayload(evilBase, 15000, "ORD-001")` produces a
    payload (the outer `some`) that re-parses successfully (the inner
    `some`), yet the re-parsed tree's tag `62` has NO sub-tag `01`
    (the final `none`) — because the rebuilt tag-62 value is 128 units
    long, its 3-digit length field `128` is misread as `12`, and the
    re-parse decodes a garbage sub-tree `{"8Z": ""}`.  So the claim's
    universally quantified conjunction fails at this base payload. -/
theorem generateDynamic_evil_cex :
    (generateDynamicQRISPayload 32 evilBase 15000 (some (strUnits "ORD-001"))).map
      (fun out => (parseEmv 32 out).map sub01of62) = some (some none) := by
  have hparse : parseEmv 32 evilBase = some evilT0 := by decide
  have htree : dynamicTree evilT0 (strUnits "15000") (some (strUnits "ORD-001")) = evilT1 := by
    decide
  have hq : buildNoCRC evilT1 = evilQ := by decide
  have hcrcval : crcVal (evilQ ++ t63 ++ padLen 4) = 51659 := by
    have e : evilQ ++ t63 ++ padLen 4 = crcC1 ++ (crcC2 ++ (crcC3 ++ crcC4)) := by decide
    have s1 : List.foldl crcStep 65535 crcC1 = 21950 := by decide
    have s2 : List.foldl crcStep 21950 crcC2 = 53687 := by decide
    have s3 : List.foldl crcStep 53687 crcC3 = 47663 := by decide
    have s4 : List.foldl crcStep 47663 crcC4 = 51659 := by decide
    rw [crcVal, e, List.foldl_append, List.foldl_append, List.foldl_append, s1, s2, s3, s4]
  have hbuild : buildEmv evilT1 = evilOut := by
    have hcrc : crc16Ccitt (evilQ ++ t63 ++ padLen 4) = strUnits "c9cb" := by
      rw [crc16Ccitt, hcrcval]
      decide
    rw [buildEmv, hq, hcrc]
    decide
  have hreparse : parseEmv 32 evilOut = some evilM := by decide
  have hsub : sub01of62 evilM = none := by decide
  rw [generateDynamicQRISPayload, hparse, dynamicAmountStr_15000, Option.map_some', htree,
    hbuild, Option.map_some', hreparse, Option.map_some', hsub]

/-- C2 counterexample: the empty tree is canonically ordered and has no
    tag `63`, yet `parseEmv (buildEmv {})` is not `{}`: the re-parse
    stores the CRC trailer as an extra entry `"63" ↦ "6007"`. -/
theorem parse_build_empty_cex :
    parseEmv 2 (buildEmv []) = some [(t63, EmvVal.leaf (strUnits "6007"))] ∧
    parseEmv 2 (buildEmv []) ≠ some [] := by
  constructor <;> decide

/-- C3 counterexample: a JavaScript-reachable composite holding tags
    `"10"` and `"01"` (an object enumerates the array-index key `"10"`
    before the string key `"01"`, whatever the insertion order).  The
    builder serializes the sub-tags in enumeration order, `10` before
    `01`, NOT in lexicographic order (`"01" < "10"` byte-wise), so the
    serialization differs from the byte-sorted one the claim asserts. -/
theorem buildValue_not_lex_cex :
    buildValue (EmvVal.comp [(strUnits "10", EmvVal.leaf (strUnits "y")),
                             (strUnits "01", EmvVal.leaf (strUnits "x"))])
      = strUnits "1001y0101x" ∧
    buildEntries (specByteSort [(strUnits "10", EmvVal.leaf (strUnits "y")),
                                (strUnits "01", EmvVal.leaf (strUnits "x"))])
      = strUnits "0101x1001y" ∧
    strUnits "1001y0101x" ≠ strUnits "0101x1001y" := by
  refine ⟨by decide, by decide, by decide⟩

/-- C4 counterexample: for the top-level tags `"B0"` and `"a0"`,
    byte-wise order puts `"B0"` (0x42...) before `"a0"` (0x61...), but
    `buildEmv`'s `localeCompare` sort emits `a0` first (the default
    collator compares letters case-insensitively at primary strength),
    so "emitted before iff byte-wise smaller" fails at this tree. -/
theorem buildEmv_not_bytewise_cex :
    buildNoCRC [(strUnits "B0", EmvVal.leaf (strUnits "x")),
                (strUnits "a0", EmvVal.leaf (strUnits "y"))]
      = strUnits "a001yB001x" ∧
    specByteLt (strUnits "B0") (strUnits "a0") = true ∧
    strUnits "a001yB001x" ≠ strUnits "B001xa001y" := by
  refine ⟨by decide, by decide, by decide⟩

/-! ## Claim C7 -/

theorem wellTypedM_jsInsert (m : EmvMap) (k : JStr) (v : EmvVal)
    (hm : wellTypedM m = true) (hv : (isCompV v == compositeTag k) = true)
    (hvw : wellTypedV v = true) : wellTypedM (jsInsert m k v) = true := by
  induction m with
  | nil => simp [jsInsert, wellTypedM, hv, hvw]
  | cons e r ih =>
    obtain ⟨k', v'⟩ := e
    simp only [wellTypedM, Bool.and_eq_true] at hm
    obtain ⟨⟨h1, h2⟩, h3⟩ := hm
    by_cases h : k' = k
    · simp [jsInsert, h, wellTypedM, hv, hvw, h3]
    · simp only [jsInsert, if_neg h]
      split
      · simp [wellTypedM, hv, hvw, h1, h2, h3]
      · simp [wellTypedM, h1, h2, ih h3]

theorem parseEmvGo_wellTyped : ∀ (fuel : Nat) (p : JStr) (i : Int) (m r : EmvMap),
    parseEmvGo fuel p i m = some r → wellTypedM m = true → wellTypedM r = true := by
  intro fuel
  induction fuel with
  | zero => intro p i m r h _; simp [parseEmvGo] at h
  | succ f ih =>
    intro p i m r h hm
    simp only [parseEmvGo] at h
    split at h
    · split at h
      · split at h
        · rename_i len heq
          split at h
          · rename_i hcompo
            split at h
            · rename_i sub hsub
              have hsubT : wellTypedM sub = true := ih _ _ _ _ hsub rfl
              have hm2 : wellTypedM (jsInsert m (jsSlice p i (i + 2)) (EmvVal.comp sub)) = true := by
                refine wellTypedM_jsInsert _ _ _ hm ?_ ?_
                · simp [isCompV, hcompo]
                · simpa [wellTypedV] using hsubT
              split at h
              · cases h; exact hm2
              · exact ih _ _ _ _ h hm2
            · cases h
          · rename_i hcompo
            have hm2 : wellTypedM (jsInsert m (jsSlice p i (i + 2))
                (EmvVal.leaf (jsSlice p (i + 4) (i + 4 + len)))) = true := by
              refine wellTypedM_jsInsert _ _ _ hm ?_ rfl
              simp [isCompV]
              simp at hcompo
              exact hcompo
            split at h
            · cases h; exact hm2
            · exact ih _ _ _ _ h hm2
        · rename_i heq
          split at h
          · rename_i hcompo
            split at h
            · rename_i sub hsub
              have hsubT : wellTypedM sub = true := ih _ _ _ _ hsub rfl
              cases h
              refine wellTypedM_jsInsert _ _ _ hm ?_ ?_
              · simp [isCompV, hcompo]
              · simpa [wellTypedV] using hsubT
            · cases h
          · rename_i hcompo
            cases h
            refine wellTypedM_jsInsert _ _ _ hm ?_ rfl
            simp [isCompV]
            simp at hcompo
            exact hcompo
      · cases h; exact hm
    · cases h; exact hm

/-- C7: every entry `parseEmv` stores under tag `62` or under a tag
    whose base-10 parse lies in 26–51 is a Composite node, and every
    other entry is a Leaf, at every nesting level of the result. -/
theorem parseEmv_composite_invariant (fuel : Nat) (p : JStr) (r : EmvMap)
    (h : parseEmv fuel p = some r) : wellTypedM r = true :=
  parseEmvGo_wellTyped fuel p 0 [] r h rfl

/-- Witness for C7: the payload `"6200"` parses to a tree whose tag
    `62` entry is an (empty) Composite, and the invariant holds. -/
theorem parseEmv_composite_invariant_witness :
    wellTypedM [(t62, EmvVal.comp [])] = true :=
  parseEmv_composite_invariant 3 (strUnits "6200") [(t62, EmvVal.comp [])] (by decide)

/-! ## Claim C3 (amended) -/

theorem buildEntries_append (a b : EmvMap) :
    buildEntries (a ++ b) = buildEntries a ++ buildEntries b := by
  induction a with
  | nil => simp [buildEntries]
  | cons e r ih =>
    obtain ⟨k, v⟩ := e
    simp [buildEntries, ih, List.append_assoc]

/-- C3 (amended): the builder serializes a Composite's sub-tags
    concatenated in the mapping's property-enumeration order — each
    entry as `tag + zero-padded-2-digit-length + value`, with no CRC
    trailer at the nested level — NOT re-sorted lexicographically. -/
theorem buildValue_enum_order (m : EmvMap) (k : JStr) (v : EmvVal)
    (h : (k, v) ∈ m) :
    ∃ m1 m2, m = m1 ++ (k, v) :: m2 ∧
      buildValue (EmvVal.comp m) =
        buildEntries m1 ++ (k ++ padLen (buildValue v).length ++ buildValue v)
          ++ buildEntries m2 := by
  obtain ⟨m1, m2, rfl⟩ := List.append_of_mem h
  refine ⟨m1, m2, rfl, ?_⟩
  rw [buildValue, buildEntries_append]
  simp [buildEntries, List.append_assoc]

/-- Witness for C3 (amended) at the counterexample composite. -/
theorem buildValue_enum_order_witness :
    ∃ m1 m2, [(strUnits "10", EmvVal.leaf (strUnits "y")),
              (strUnits "01", EmvVal.leaf (strUnits "x"))]
        = m1 ++ (strUnits "01", EmvVal.leaf (strUnits "x")) :: m2 ∧
      buildValue (EmvVal.comp [(strUnits "10", EmvVal.leaf (strUnits "y")),
                               (strUnits "01", EmvVal.leaf (strUnits "x"))])
        = buildEntries m1 ++ (strUnits "01"
            ++ padLen (buildValue (EmvVal.leaf (strUnits "x"))).length
            ++ buildValue (EmvVal.leaf (strUnits "x"))) ++ buildEntries m2 :=
  buildValue_enum_order _ _ _ (by decide)

/-! ## Claim C4 (amended) -/

theorem cmpBy_congr (w1 w2 : Nat → Nat) : ∀ (a b : JStr),
    (∀ u ∈ a, w1 u = w2 u) → (∀ u ∈ b, w1 u = w2 u) → cmpBy w1 a b = cmpBy w2 a b := by
  intro a
  induction a with
  | nil => intro b _ _; cases b <;> simp [cmpBy]
  | cons x xs ih =>
    intro b ha hb
    cases b with
    | nil => simp [cmpBy]
    | cons y ys =>
      have hx : w1 x = w2 x := ha x (by simp)
      have hy : w1 y = w2 y := hb y (by simp)
      simp only [cmpBy, hx, hy]
      split
      · rfl
      · split
        · rfl
        · exact ih ys (fun u hu => ha u (by simp [hu])) (fun u hu => hb u (by simp [hu]))

theorem cmpBy_refl (w : Nat → Nat) : ∀ a : JStr, cmpBy w a a = Ordering.eq := by
  intro a
  induction a with
  | nil => rfl
  | cons x xs ih => simp [cmpBy, ih]

theorem cmpBy_id_eq_iff : ∀ a b : JStr, cmpBy id a b = Ordering.eq ↔ a = b := by
  intro a
  induction a with
  | nil => intro b; cases b <;> simp [cmpBy]
  | cons x xs ih =>
    intro b
    cases b with
    | nil => simp [cmpBy]
    | cons y ys =>
      simp only [cmpBy, id]
      split
      · rename_i hxy
        constructor
        · intro h; cases h
        · intro h
          injection h with h1 _
          omega
      · split
        · rename_i hyx
          constructor
          · intro h; cases h
          · intro h
            injection h with h1 _
            omega
        · rename_i h1 h2
          have hxy : x = y := by omega
          simp [hxy, ih ys]

theorem digit_primaryW {u : Nat} (h : isDigitU u = true) : primaryW u = u := by
  simp only [isDigitU, Bool.and_eq_true, decide_eq_true_eq] at h
  simp only [primaryW]
  have : ¬ (65 ≤ u && u ≤ 90) = true := by
    simp only [Bool.and_eq_true, decide_eq_true_eq]
    omega
  simp [this]

theorem digit_tertW {u : Nat} (h : isDigitU u = true) : tertW u = 0 := by
  simp only [isDigitU, Bool.and_eq_true, decide_eq_true_eq] at h
  simp only [tertW]
  have : ¬ (65 ≤ u && u ≤ 90) = true := by
    simp only [Bool.and_eq_true, decide_eq_true_eq]
    omega
  simp [this]

theorem lc_digit_lt_iff {a b : JStr} (ha : digitTag a = true) (hb : digitTag b = true) :
    (jsLocaleCompare a b < 0) ↔ specByteLt a b = true := by
  simp only [digitTag, List.all_eq_true] at ha hb
  have hp : cmpBy primaryW a b = cmpBy id a b :=
    cmpBy_congr _ _ a b (fun u hu => by rw [digit_primaryW (ha u hu)]; rfl)
      (fun u hu => by rw [digit_primaryW (hb u hu)]; rfl)
  unfold jsLocaleCompare specByteLt
  rw [hp]
  cases hcmp : cmpBy id a b with
  | lt => simp
  | gt => simp
  | eq =>
    have hab : a = b := (cmpBy_id_eq_iff a b).mp hcmp
    subst hab
    rw [cmpBy_refl]
    simp

theorem insSorted_eq_specByteInsert (x : JStr × EmvVal) : ∀ (l : EmvMap),
    digitTag x.1 = true → (∀ e ∈ l, digitTag e.1 = true) →
    insSorted x l = specByteInsert x l := by
  intro l
  induction l with
  | nil => intro _ _; rfl
  | cons y r ih =>
    intro hx hl
    have hy : digitTag y.1 = true := hl y (by simp)
    have hiff := lc_digit_lt_iff hx hy
    simp only [insSorted, specByteInsert]
    by_cases hc : specByteLt x.1 y.1 = true
    · rw [if_pos (hiff.mpr hc), if_pos hc]
    · rw [if_neg (fun hlt => hc (hiff.mp hlt)), if_neg hc,
        ih hx (fun e he => hl e (by simp [he]))]

theorem insSorted_perm (x : JStr × EmvVal) : ∀ (l : EmvMap), (insSorted x l).Perm (x :: l) := by
  intro l
  induction l with
  | nil => simp [insSorted]
  | cons y r ih =>
    simp only [insSorted]
    split
    · exact List.Perm.refl _
    · exact ((ih.cons y).trans (List.Perm.swap x y r))

theorem sortEntries_perm (l : EmvMap) : (sortEntries l).Perm l := by
  induction l with
  | nil => simp [sortEntries]
  | cons x r ih =>
    have h1 : sortEntries (x :: r) = insSorted x (sortEntries r) := rfl
    rw [h1]
    exact (insSorted_perm x (sortEntries r)).trans (ih.cons x)

theorem sortEntries_eq_specByteSort : ∀ (l : EmvMap),
    (∀ e ∈ l, digitTag e.1 = true) → sortEntries l = specByteSort l := by
  intro l
  induction l with
  | nil => intro _; rfl
  | cons x r ih =>
    intro h
    have h1 : sortEntries (x :: r) = insSorted x (sortEntries r) := rfl
    have h2 : specByteSort (x :: r) = specByteInsert x (specByteSort r) := rfl
    have hmem : ∀ e ∈ sortEntries r, digitTag e.1 = true := by
      intro e he
      exact h e (by simp [((sortEntries_perm r).mem_iff).mp he])
    rw [h1, insSorted_eq_specByteInsert x (sortEntries r) (h x (by simp)) hmem,
      ih (fun e he => h e (by simp [he])), h2]

/-- C4 (amended): `buildEmv` orders top-level tags by the default-locale
    collator (`localeCompare`), not by raw code units; for trees whose
    tags are all decimal digits — every numeric EMV tag — the two
    orders coincide, and the non-CRC emission equals the byte-wise
    sorted serialization. -/
theorem buildEmv_digit_tags_bytewise (m : EmvMap)
    (h : ∀ e ∈ m, digitTag e.1 = true) :
    buildNoCRC m = buildEntries (specByteSort (m.filter (fun e => e.1 ≠ t63))) := by
  rw [buildNoCRC, sortEntries_eq_specByteSort]
  intro e he
  exact h e (List.mem_of_mem_filter he)

/-- Witness for C4 (amended) on a digit-tag tree. -/
theorem buildEmv_digit_tags_bytewise_witness :
    buildNoCRC [(t54, EmvVal.leaf (strUnits "5")), (t01, EmvVal.leaf (strUnits "12"))]
      = buildEntries (specByteSort
          ([(t54, EmvVal.leaf (strUnits "5")), (t01, EmvVal.leaf (strUnits "12"))].filter
            (fun e => e.1 ≠ t63))) :=
  buildEmv_digit_tags_bytewise _ (by decide)

/-! ## Build/parse round-trip machinery -/

theorem parseEmvGo_mono : ∀ (fuel fuel' : Nat) (p : JStr) (i : Int) (m r : EmvMap),
    parseEmvGo fuel p i m = some r → fuel ≤ fuel' → parseEmvGo fuel' p i m = some r := by
  intro fuel
  induction fuel with
  | zero => intro fuel' p i m r h _; simp [parseEmvGo] at h
  | succ f ih =>
    intro fuel' p i m r h hle
    obtain ⟨f2, rfl⟩ : ∃ f2, fuel' = f2 + 1 := ⟨fuel' - 1, by omega⟩
    have hf2 : f ≤ f2 := by omega
    simp only [parseEmvGo] at h ⊢
    split at h
    · rename_i hlt
      rw [if_pos hlt]
      split at h
      · rename_i htag
        rw [if_pos htag]
        split at h
        · rename_i len heq
          split at h
          · rename_i hcompo
            rw [if_pos hcompo]
            split at h
            · rename_i sub hsub
              simp only [ih f2 _ _ _ _ hsub hf2]
              split at h
              · rename_i h63
                rw [if_pos h63]
                exact h
              · rename_i h63
                rw [if_neg h63]
                exact ih f2 _ _ _ _ h hf2
            · cases h
          · rename_i hcompo
            rw [if_neg hcompo]
            split at h
            · rename_i h63
              rw [if_pos h63]
              exact h
            · rename_i h63
              rw [if_neg h63]
              exact ih f2 _ _ _ _ h hf2
        · rename_i heq
          split at h
          · rename_i hcompo
            rw [if_pos hcompo]
            split at h
            · rename_i sub hsub
              simp only [ih f2 _ _ _ _ hsub hf2]
              exact h
            · cases h
          · rename_i hcompo
            rw [if_neg hcompo]
            exact h
      · rename_i htag
        rw [if_neg htag]
        exact h
    · rename_i hlt
      rw [if_neg hlt]
      exact h

theorem parseEmvGo_end (p : JStr) (i : Int) (m : EmvMap)
    (h : ¬ i < (p.length : Int)) : parseEmvGo 1 p i m = some m := by
  simp [parseEmvGo, h]

theorem tagOk_length {k : JStr} (h : tagOk k = true) : k.length = 2 := by
  simp only [tagOk, Bool.and_eq_true, decide_eq_true_eq] at h
  exact h.1

theorem padLen_parse : ∀ n < 100, jsParseInt (padLen n) = some (n : Int) := by decide

theorem padLen_len2 : ∀ n < 100, (padLen n).length = 2 := by decide

theorem take_min_length (s : JStr) (n : Nat) : s.take (min n s.length) = s.take n := by
  by_cases h : n ≤ s.length
  · rw [Nat.min_eq_left h]
  · rw [Nat.min_eq_right (by omega), List.take_length, List.take_of_length_le (by omega)]

theorem jsSlice_at_append (pre s : JStr) (n : Nat) :
    jsSlice (pre ++ s) (pre.length) ((pre.length : Int) + n) = s.take n := by
  have h1 : jsIdx (pre ++ s).length (pre.length) = pre.length := by
    simp only [jsIdx, List.length_append]
    rw [if_neg (by omega)]
    simp only [Int.toNat_natCast]
    omega
  have h2 : jsIdx (pre ++ s).length ((pre.length : Int) + n) = pre.length + min n s.length := by
    simp only [jsIdx, List.length_append]
    rw [if_neg (by omega)]
    have : ((pre.length : Int) + n).toNat = pre.length + n := by omega
    rw [this]
    omega
  rw [jsSlice, h1, h2, List.take_append_eq_append_take,
    List.take_of_length_le (by omega), Nat.add_sub_cancel_left,
    take_min_length, List.drop_left]

theorem jsSlice_block (pre s rest : JStr) (n : Nat) (a b : Int)
    (ha : a = pre.length) (hb : b = (pre.length : Int) + n) (hn : s.length = n) :
    jsSlice (pre ++ (s ++ rest)) a b = s := by
  subst ha hb
  rw [jsSlice_at_append]
  rw [List.take_append_eq_append_take, List.take_of_length_le (by omega), hn]
  simp

theorem parseEmvGo_step (f : Nat) (pre rest k v : JStr) (m : EmvMap) (w : EmvVal)
    (htag : tagOk k = true) (h63 : k ≠ t63) (hv : v.length ≤ 99)
    (hw : (compositeTag k = false ∧ w = EmvVal.leaf v) ∨
          (compositeTag k = true ∧ ∃ sub, parseEmvGo f v 0 [] = some sub ∧ w = EmvVal.comp sub)) :
    parseEmvGo (f + 1) (pre ++ (k ++ padLen v.length ++ v) ++ rest) (pre.length) m
      = parseEmvGo f (pre ++ (k ++ padLen v.length ++ v) ++ rest)
          ((pre.length : Int) + 4 + v.length) (jsInsert m k w) := by
  have hk2 : k.length = 2 := tagOk_length htag
  have hpl2 : (padLen v.length).length = 2 := padLen_len2 _ (by omega)
  have hassoc : pre ++ (k ++ padLen v.length ++ v) ++ rest
      = pre ++ (k ++ (padLen v.length ++ (v ++ rest))) := by simp [List.append_assoc]
  rw [hassoc]
  have e1 : jsSlice (pre ++ (k ++ (padLen v.length ++ (v ++ rest)))) (pre.length)
      ((pre.length : Int) + 2) = k :=
    jsSlice_block _ _ _ 2 _ _ rfl (by push_cast; ring) hk2
  have hps : pre ++ (k ++ (padLen v.length ++ (v ++ rest)))
      = (pre ++ k) ++ (padLen v.length ++ (v ++ rest)) := by simp [List.append_assoc]
  have e2 : jsSlice (pre ++ (k ++ (padLen v.length ++ (v ++ rest)))) ((pre.length : Int) + 2)
      ((pre.length : Int) + 4) = padLen v.length := by
    rw [hps]
    refine jsSlice_block _ _ _ 2 _ _ ?_ ?_ hpl2
    · simp [hk2]
      try push_cast
      try ring
    · simp [hk2]
      try push_cast
      try ring
  have hps2 : pre ++ (k ++ (padLen v.length ++ (v ++ rest)))
      = ((pre ++ k) ++ padLen v.length) ++ (v ++ rest) := by simp [List.append_assoc]
  have e3 : jsSlice (pre ++ (k ++ (padLen v.length ++ (v ++ rest)))) ((pre.length : Int) + 4)
      ((pre.length : Int) + 4 + v.length) = v := by
    rw [hps2]
    refine jsSlice_block _ _ _ v.length _ _ ?_ ?_ rfl
    · simp [hk2, hpl2]
      try push_cast
      try ring
    · simp [hk2, hpl2]
      try push_cast
      try ring
  have hlt : (pre.length : Int) < (pre ++ (k ++ (padLen v.length ++ (v ++ rest)))).length := by
    simp [List.length_append]
    omega
  have hparse : jsParseInt (jsSlice (pre ++ (k ++ (padLen v.length ++ (v ++ rest))))
      ((pre.length : Int) + 2) ((pre.length : Int) + 4)) = some (v.length : Int) := by
    rw [e2]; exact padLen_parse v.length (by omega)
  rcases hw with ⟨hcompo, rfl⟩ | ⟨hcompo, sub, hsub, rfl⟩
  · simp only [parseEmvGo, if_pos hlt, e1, htag, if_true, hparse, e3, hcompo,
      Bool.false_eq_true, if_false, if_neg h63]
  · simp only [parseEmvGo, if_pos hlt, e1, htag, if_true, hparse, e3, hcompo,
      if_true, hsub, if_neg h63]

theorem parseEmvGo_crc_tail (f : Nat) (pre c : JStr) (m : EmvMap) (hc : c.length = 4) :
    parseEmvGo (f + 1) (pre ++ (t63 ++ padLen 4 ++ c)) (pre.length) m
      = some (jsInsert m t63 (EmvVal.leaf c)) := by
  have hassoc : pre ++ (t63 ++ padLen 4 ++ c) = pre ++ (t63 ++ (padLen 4 ++ (c ++ []))) := by
    simp [List.append_assoc]
  rw [hassoc]
  have e1 : jsSlice (pre ++ (t63 ++ (padLen 4 ++ (c ++ [])))) (pre.length)
      ((pre.length : Int) + 2) = t63 :=
    jsSlice_block _ _ _ 2 _ _ rfl (by push_cast; ring) rfl
  have hps : pre ++ (t63 ++ (padLen 4 ++ (c ++ [])))
      = (pre ++ t63) ++ (padLen 4 ++ (c ++ [])) := by simp [List.append_assoc]
  have e2 : jsSlice (pre ++ (t63 ++ (padLen 4 ++ (c ++ [])))) ((pre.length : Int) + 2)
      ((pre.length : Int) + 4) = padLen 4 := by
    rw [hps]
    refine jsSlice_block _ _ _ 2 _ _ ?_ ?_ rfl
    · simp [t63]
      try push_cast
      try ring
    · simp [t63]
      try push_cast
      try ring
  have hps2 : pre ++ (t63 ++ (padLen 4 ++ (c ++ [])))
      = ((pre ++ t63) ++ padLen 4) ++ (c ++ []) := by simp [List.append_assoc]
  have e3 : jsSlice (pre ++ (t63 ++ (padLen 4 ++ (c ++ [])))) ((pre.length : Int) + 4)
      ((pre.length : Int) + 4 + 4) = c := by
    rw [hps2]
    have hp4 : (padLen 4).length = 2 := by decide
    refine jsSlice_block _ _ _ 4 _ _ ?_ ?_ hc
    · simp [t63, hp4]
      try push_cast
      try ring
    · simp [t63, hp4]
      try push_cast
      try ring
  have hlt : (pre.length : Int) < (pre ++ (t63 ++ (padLen 4 ++ (c ++ [])))).length := by
    simp [List.length_append, t63]
    omega
  have hparse : jsParseInt (jsSlice (pre ++ (t63 ++ (padLen 4 ++ (c ++ []))))
      ((pre.length : Int) + 2) ((pre.length : Int) + 4)) = some (4 : Int) := by
    rw [e2]; exact padLen_parse 4 (by omega)
  have hcompo : compositeTag t63 = false := by decide
  have htag : tagOk t63 = true := by decide
  simp only [parseEmvGo, if_pos hlt, e1, htag, if_true, hparse, hcompo,
    Bool.false_eq_true, if_false]
  rw [e3]

theorem insertAll_cons (m : EmvMap) (k : JStr) (v : EmvVal) (es : EmvMap) :
    insertAll m ((k, v) :: es) = insertAll (jsInsert m k v) es := rfl

mutual
theorem parse_value_sub : (v : EmvVal) → wfVal v = true → ∀ msub, v = EmvVal.comp msub →
    ∃ f, parseEmvGo f (buildEntries msub) 0 [] = some msub
  | .leaf _, _ => by
      intro msub h
      exact absurd h (by simp)
  | .comp mm, hwf => by
      intro msub heq
      have hmsub : mm = msub := EmvVal.comp.inj heq
      subst hmsub
      have hwf2 : wfEntries mm = true ∧ beqM (insertAll [] mm) mm = true := by
        simpa [wfVal, Bool.and_eq_true] using hwf
      have hfix : insertAll [] mm = mm := (beqM_iff _ _).mp hwf2.2
      have hcont : ∃ f, parseEmvGo f ([] ++ buildEntries mm ++ [])
          ((([] : JStr).length : Int) + (buildEntries mm).length) (insertAll [] mm)
            = some mm := by
        refine ⟨1, ?_⟩
        rw [hfix]
        apply parseEmvGo_end
        simp
      obtain ⟨f, hf⟩ := parse_entries mm hwf2.1 [] [] [] mm hcont
      exact ⟨f, by simpa using hf⟩

theorem parse_entries : (es : EmvMap) → wfEntries es = true →
    ∀ (pre rest : JStr) (m r : EmvMap),
    (∃ f, parseEmvGo f (pre ++ buildEntries es ++ rest)
        ((pre.length : Int) + (buildEntries es).length) (insertAll m es) = some r) →
    ∃ f, parseEmvGo f (pre ++ buildEntries es ++ rest) (pre.length) m = some r
  | [], _ => by
      intro pre rest m r hcont
      simpa [buildEntries, insertAll] using hcont
  | (k, v) :: es', hwf => by
      intro pre rest m r hcont
      have hparts : tagOk k = true ∧ k ≠ t63 ∧ isCompV v = compositeTag k ∧
          (buildValue v).length ≤ 99 ∧ wfVal v = true ∧ wfEntries es' = true := by
        simp only [wfEntries, Bool.and_eq_true, decide_eq_true_eq, beq_iff_eq,
          List.all_eq_true] at hwf
        tauto
      obtain ⟨htag, h63, hcv, hlen, hwfv, hwfes⟩ := hparts
      have hk2 : k.length = 2 := tagOk_length htag
      have hpl2 : (padLen (buildValue v).length).length = 2 := padLen_len2 _ (by omega)
      have hbe : buildEntries ((k, v) :: es')
          = (k ++ padLen (buildValue v).length ++ buildValue v) ++ buildEntries es' := by
        simp [buildEntries, List.append_assoc]
      have hplen : (pre ++ (k ++ padLen (buildValue v).length ++ buildValue v)).length
          = pre.length + (4 + (buildValue v).length) := by
        simp [List.length_append, hk2, hpl2]
        omega
      have hmid : ∃ f, parseEmvGo f
          ((pre ++ (k ++ padLen (buildValue v).length ++ buildValue v))
            ++ buildEntries es' ++ rest)
          (((pre ++ (k ++ padLen (buildValue v).length ++ buildValue v)).length : Int))
          (jsInsert m k v) = some r := by
        apply parse_entries es' hwfes _ rest (jsInsert m k v) r
        obtain ⟨f, hf⟩ := hcont
        refine ⟨f, ?_⟩
        rw [← insertAll_cons]
        have hshape : (pre ++ (k ++ padLen (buildValue v).length ++ buildValue v))
            ++ buildEntries es' ++ rest
            = pre ++ buildEntries ((k, v) :: es') ++ rest := by
          rw [hbe]
          simp [List.append_assoc]
        rw [hshape]
        have hidx : (((pre ++ (k ++ padLen (buildValue v).length ++ buildValue v)).length : Int)
            + ((buildEntries es').length : Int))
            = ((pre.length : Int) + ((buildEntries ((k, v) :: es')).length : Int)) := by
          rw [hplen, hbe]
          simp only [List.length_append, hk2, hpl2]
          push_cast
          ring
        rw [hidx]
        exact hf
      obtain ⟨fmid, hfmid⟩ := hmid
      by_cases hcompo : compositeTag k = true
      · have hsubp : ∃ sub fs, parseEmvGo fs (buildValue v) 0 [] = some sub
            ∧ v = EmvVal.comp sub := by
          cases v with
          | leaf s =>
            exfalso
            rw [hcompo] at hcv
            simp [isCompV] at hcv
          | comp msub =>
            obtain ⟨fs, hfs⟩ := parse_value_sub (EmvVal.comp msub) hwfv msub rfl
            exact ⟨msub, fs, hfs, rfl⟩
        obtain ⟨sub, fs, hfs, rfl⟩ := hsubp
        refine ⟨max fmid fs + 1, ?_⟩
        have hfs2 : parseEmvGo (max fmid fs) (buildValue (EmvVal.comp sub)) 0 [] = some sub :=
          parseEmvGo_mono fs _ _ _ _ _ hfs (by omega)
        have hmid2 := parseEmvGo_mono fmid (max fmid fs) _ _ _ _ hfmid (by omega)
        have hstep := parseEmvGo_step (max fmid fs) pre (buildEntries es' ++ rest) k
          (buildValue (EmvVal.comp sub)) m (EmvVal.comp sub) htag h63 hlen
          (Or.inr ⟨hcompo, sub, hfs2, rfl⟩)
        have hP : pre ++ buildEntries ((k, EmvVal.comp sub) :: es') ++ rest
            = pre ++ (k ++ padLen (buildValue (EmvVal.comp sub)).length
                ++ buildValue (EmvVal.comp sub)) ++ (buildEntries es' ++ rest) := by
          rw [hbe]
          simp [List.append_assoc]
        rw [hP, hstep]
        have e : (pre ++ (k ++ padLen (buildValue (EmvVal.comp sub)).length
            ++ buildValue (EmvVal.comp sub))) ++ buildEntries es' ++ rest
            = pre ++ (k ++ padLen (buildValue (EmvVal.comp sub)).length
                ++ buildValue (EmvVal.comp sub)) ++ (buildEntries es' ++ rest) := by
          simp [List.append_assoc]
        have eidx : (((pre ++ (k ++ padLen (buildValue (EmvVal.comp sub)).length
            ++ buildValue (EmvVal.comp sub))).length : Int))
            = (pre.length : Int) + 4 + ((buildValue (EmvVal.comp sub)).length : Int) := by
          rw [hplen]
          push_cast
          ring
        rw [e, eidx] at hmid2
        exact hmid2
      · have hcompf : compositeTag k = false := by simpa using hcompo
        obtain ⟨s, rfl⟩ : ∃ s, v = EmvVal.leaf s := by
          cases v with
          | leaf s => exact ⟨s, rfl⟩
          | comp mm =>
            exfalso
            rw [hcompf] at hcv
            simp [isCompV] at hcv
        refine ⟨fmid + 1, ?_⟩
        have hstep := parseEmvGo_step fmid pre (buildEntries es' ++ rest) k
          (buildValue (EmvVal.leaf s)) m (EmvVal.leaf s) htag h63 hlen
          (Or.inl ⟨hcompf, rfl⟩)
        have hP : pre ++ buildEntries ((k, EmvVal.leaf s) :: es') ++ rest
            = pre ++ (k ++ padLen (buildValue (EmvVal.leaf s)).length
                ++ buildValue (EmvVal.leaf s)) ++ (buildEntries es' ++ rest) := by
          rw [hbe]
          simp [List.append_assoc]
        rw [hP, hstep]
        have e : (pre ++ (k ++ padLen (buildValue (EmvVal.leaf s)).length
            ++ buildValue (EmvVal.leaf s))) ++ buildEntries es' ++ rest
            = pre ++ (k ++ padLen (buildValue (EmvVal.leaf s)).length
                ++ buildValue (EmvVal.leaf s)) ++ (buildEntries es' ++ rest) := by
          simp [List.append_assoc]
        have eidx : (((pre ++ (k ++ padLen (buildValue (EmvVal.leaf s)).length
            ++ buildValue (EmvVal.leaf s))).length : Int))
            = (pre.length : Int) + 4 + ((buildValue (EmvVal.leaf s)).length : Int) := by
          rw [hplen]
          push_cast
          ring
        rw [e, eidx] at hfmid
        exact hfmid
end

theorem wfEntries_iff (l : EmvMap) : wfEntries l = true ↔
    (∀ e ∈ l, tagOk e.1 = true ∧ e.1 ≠ t63 ∧ isCompV e.2 = compositeTag e.1 ∧
      (buildValue e.2).length ≤ 99 ∧ wfVal e.2 = true) ∧ (l.map Prod.fst).Nodup := by
  induction l with
  | nil => simp [wfEntries]
  | cons e r ih =>
    obtain ⟨k, v⟩ := e
    simp only [wfEntries, Bool.and_eq_true, decide_eq_true_eq, beq_iff_eq,
      List.all_eq_true, ih, List.map_cons, List.nodup_cons, List.mem_cons, List.mem_map,
      forall_eq_or_imp, not_exists, not_and]
    tauto

theorem wfEntries_perm {l l' : EmvMap} (hp : l.Perm l') (h : wfEntries l = true) :
    wfEntries l' = true := by
  rw [wfEntries_iff] at h ⊢
  obtain ⟨h1, h2⟩ := h
  exact ⟨fun e he => h1 e (hp.symm.subset he), ((hp.map Prod.fst).nodup_iff).mp h2⟩

theorem buildNoCRC_of_wf (t : EmvMap) (h : wfEntries t = true) :
    buildNoCRC t = buildEntries (sortEntries t) := by
  rw [buildNoCRC]
  have hf : t.filter (fun e => e.1 ≠ t63) = t := by
    rw [List.filter_eq_self]
    intro a ha
    simp [(((wfEntries_iff t).mp h).1 a ha).2.1]
  rw [hf]

theorem crcTrailer_length (m : EmvMap) : (crcTrailer m).length = 4 := by
  simp [crcTrailer, jsToUpper, crc16Ccitt_length]

/-- C2 (amended): for every well-formed tree in canonical (JavaScript
    re-insertion stable) order, re-parsing the built payload yields the
    tree itself plus one extra entry: tag `63` holding the uppercased
    CRC — not the tree alone. -/
theorem buildEmv_roundtrip (t : EmvMap) (h : canonicalTree t = true) :
    ParsesTo (buildEmv t) (jsInsert t t63 (EmvVal.leaf (crcTrailer t))) := by
  have hsplit : wfEntries t = true ∧ insertAll [] (sortEntries t) = t := by
    have h2 := h
    simp only [canonicalTree, Bool.and_eq_true] at h2
    exact ⟨h2.1, (beqM_iff _ _).mp h2.2⟩
  obtain ⟨hwfT, hfix⟩ := hsplit
  have hwfS : wfEntries (sortEntries t) = true :=
    wfEntries_perm (sortEntries_perm t).symm hwfT
  have hQ : buildNoCRC t = buildEntries (sortEntries t) := buildNoCRC_of_wf t hwfT
  have hc4 : (crcTrailer t).length = 4 := crcTrailer_length t
  have hstart := parse_entries (sortEntries t) hwfS []
    (t63 ++ padLen 4 ++ crcTrailer t) [] (jsInsert t t63 (EmvVal.leaf (crcTrailer t))) ?_
  · obtain ⟨f, hf⟩ := hstart
    refine ⟨f, ?_⟩
    have hshape : buildEmv t
        = [] ++ buildEntries (sortEntries t) ++ (t63 ++ padLen 4 ++ crcTrailer t) := by
      rw [buildEmv, hQ]
      simp only [crcTrailer, hQ, List.nil_append, List.append_assoc]
    rw [parseEmv, hshape]
    simpa using hf
  · refine ⟨1, ?_⟩
    have htail := parseEmvGo_crc_tail 0 (buildEntries (sortEntries t)) (crcTrailer t) t hc4
    rw [hfix]
    have hsh : ([] : JStr) ++ buildEntries (sortEntries t) ++ (t63 ++ padLen 4 ++ crcTrailer t)
        = buildEntries (sortEntries t) ++ (t63 ++ padLen 4 ++ crcTrailer t) := by simp
    rw [hsh]
    have hidx : ((([] : JStr).length : Int) + ((buildEntries (sortEntries t)).length : Int))
        = ((buildEntries (sortEntries t)).length : Int) := by simp
    rw [hidx]
    exact htail

/-- Witness for C2 (amended) at a concrete canonical tree. -/
theorem buildEmv_roundtrip_witness :
    ParsesTo (buildEmv [(t01, EmvVal.leaf (strUnits "11"))])
      (jsInsert [(t01, EmvVal.leaf (strUnits "11"))] t63
        (EmvVal.leaf (crcTrailer [(t01, EmvVal.leaf (strUnits "11"))]))) :=
  buildEmv_roundtrip [(t01, EmvVal.leaf (strUnits "11"))] (by decide)

/-! ## Claim C1 (amended) -/

/-- C1 (amended): for every base payload whose parse terminates and for
    which the mutated tree is canonically well-formed (the adversarial
    counterexample shows general base payloads violate this — oversized
    rebuilt composites misalign the re-parse), the payload built by
    `generateDynamicQRISPayload(base, 15000, "ORD-001")` re-parses to
    the mutated tree plus the CRC entry: tag `01` is `"12"`, tag `54`
    is `"15000"`, tag `62`'s sub-tag `01` is `"ORD-001"`, and the
    payload ends in the uppercased CRC16 of its prefix up to and
    including the `6304` placeholder. -/
theorem generateDynamic_fields (fuel : Nat) (base : JStr) (emv : EmvMap)
    (hparse : parseEmv fuel base = some emv)
    (hcanon : canonicalTree
      (dynamicTree emv (dynamicAmountStr 15000) (some (strUnits "ORD-001"))) = true) :
    ∃ out M, generateDynamicQRISPayload fuel base 15000 (some (strUnits "ORD-001")) = some out ∧
      ParsesTo out M ∧
      emvLookup M t01 = some (EmvVal.leaf (strUnits "12")) ∧
      emvLookup M t54 = some (EmvVal.leaf (strUnits "15000")) ∧
      (∃ sub, emvLookup M t62 = some (EmvVal.comp sub) ∧
        emvLookup sub t01 = some (EmvVal.leaf (strUnits "ORD-001"))) ∧
      (∃ q, out = q ++ jsToUpper (crc16Ccitt q) ∧ ∃ qp, q = qp ++ strUnits "6304") := by
  refine ⟨buildEmv (dynamicTree emv (dynamicAmountStr 15000) (some (strUnits "ORD-001"))),
    jsInsert (dynamicTree emv (dynamicAmountStr 15000) (some (strUnits "ORD-001"))) t63
      (EmvVal.leaf (crcTrailer
        (dynamicTree emv (dynamicAmountStr 15000) (some (strUnits "ORD-001"))))),
    ?_, buildEmv_roundtrip _ hcanon, ?_, ?_, ?_, ?_⟩
  · rw [generateDynamicQRISPayload, hparse, Option.map_some']
  · rw [emvLookup_jsInsert_ne _ _ _ _ (by decide)]
    simp only [dynamicTree]
    rw [emvLookup_jsInsert_ne _ _ _ _ (by decide), emvLookup_jsInsert_ne _ _ _ _ (by decide)]
    exact emvLookup_jsInsert_self _ _ _
  · rw [emvLookup_jsInsert_ne _ _ _ _ (by decide)]
    simp only [dynamicTree]
    rw [emvLookup_jsInsert_ne _ _ _ _ (by decide), emvLookup_jsInsert_self,
      dynamicAmountStr_15000]
  · rw [emvLookup_jsInsert_ne _ _ _ _ (by decide)]
    simp only [dynamicTree]
    rw [emvLookup_jsInsert_self]
    refine ⟨_, rfl, ?_⟩
    rw [if_neg (by decide)]
    exact emvLookup_jsInsert_self _ _ _
  · refine ⟨buildNoCRC (dynamicTree emv (dynamicAmountStr 15000) (some (strUnits "ORD-001")))
      ++ t63 ++ padLen 4, ?_, ?_⟩
    · rw [buildEmv]
    · refine ⟨buildNoCRC (dynamicTree emv (dynamicAmountStr 15000)
        (some (strUnits "ORD-001"))), ?_⟩
      have h64 : t63 ++ padLen 4 = strUnits "6304" := by decide
      rw [List.append_assoc, h64]

/-- Witness for C1 (amended) at the empty base payload. -/
theorem generateDynamic_fields_witness :
    ∃ out M, generateDynamicQRISPayload 1 [] 15000 (some (strUnits "ORD-001")) = some out ∧
      ParsesTo out M ∧
      emvLookup M t01 = some (EmvVal.leaf (strUnits "12")) ∧
      emvLookup M t54 = some (EmvVal.leaf (strUnits "15000")) ∧
      (∃ sub, emvLookup M t62 = some (EmvVal.comp sub) ∧
        emvLookup sub t01 = some (EmvVal.leaf (strUnits "ORD-001"))) ∧
      (∃ q, out = q ++ jsToUpper (crc16Ccitt q) ∧ ∃ qp, q = qp ++ strUnits "6304") :=
  generateDynamic_fields 1 [] [] (by decide) (by rw [dynamicAmountStr_15000]; decide)

/-! ## Claim C10 -/

/-- C10: `generateDynamicQRISPayload` forces tag `62` to a Composite
    even with no reference: if the parsed base has a Composite there,
    its sub-entries are kept unchanged; if it has nothing or a Leaf,
    the mutated tree holds an empty Composite at `62` and the built
    payload contains the serialized empty field `"6200"`. -/
theorem generateDynamic_forces_62 (fuel : Nat) (base : JStr) (emv : EmvMap) (a : ℚ)
    (hparse : parseEmv fuel base = some emv) :
    (∀ m0, emvLookup emv t62 = some (EmvVal.comp m0) →
      emvLookup (dynamicTree emv (dynamicAmountStr a) none) t62 = some (EmvVal.comp m0)) ∧
    ((emvLookup emv t62 = none ∨ ∃ s, emvLookup emv t62 = some (EmvVal.leaf s)) →
      emvLookup (dynamicTree emv (dynamicAmountStr a) none) t62 = some (EmvVal.comp []) ∧
      ∃ preQ postQ, generateDynamicQRISPayload fuel base a none
        = some (preQ ++ strUnits "6200" ++ postQ)) := by
  have hstable : emvLookup (jsInsert (jsInsert emv t01 (EmvVal.leaf [49, 50])) t54
      (EmvVal.leaf (dynamicAmountStr a))) t62 = emvLookup emv t62 := by
    rw [emvLookup_jsInsert_ne _ _ _ _ (by decide), emvLookup_jsInsert_ne _ _ _ _ (by decide)]
  constructor
  · intro m0 hm0
    simp only [dynamicTree, hstable, hm0]
    exact emvLookup_jsInsert_self _ _ _
  · intro hcase
    have haddl : emvLookup (dynamicTree emv (dynamicAmountStr a) none) t62
        = some (EmvVal.comp []) := by
      rcases hcase with hnone | ⟨s, hleaf⟩
      · simp only [dynamicTree, hstable, hnone]
        exact emvLookup_jsInsert_self _ _ _
      · simp only [dynamicTree, hstable, hleaf]
        exact emvLookup_jsInsert_self _ _ _
    refine ⟨haddl, ?_⟩
    have hmem : (t62, EmvVal.comp []) ∈ dynamicTree emv (dynamicAmountStr a) none :=
      emvLookup_mem haddl
    have hmemf : (t62, EmvVal.comp [])
        ∈ (dynamicTree emv (dynamicAmountStr a) none).filter (fun e => e.1 ≠ t63) :=
      List.mem_filter.mpr ⟨hmem, by decide⟩
    have hmems : (t62, EmvVal.comp [])
        ∈ sortEntries ((dynamicTree emv (dynamicAmountStr a) none).filter
          (fun e => e.1 ≠ t63)) :=
      ((sortEntries_perm _).mem_iff).mpr hmemf
    obtain ⟨l1, l2, hsplit⟩ := List.append_of_mem hmems
    refine ⟨buildEntries l1, buildEntries l2 ++ t63 ++ padLen 4
      ++ jsToUpper (crc16Ccitt (buildNoCRC (dynamicTree emv (dynamicAmountStr a) none)
        ++ t63 ++ padLen 4)), ?_⟩
    rw [generateDynamicQRISPayload, hparse, Option.map_some']
    congr 1
    rw [buildEmv, buildNoCRC, hsplit, buildEntries_append]
    have hemit : buildEntries ((t62, EmvVal.comp []) :: l2)
        = strUnits "6200" ++ buildEntries l2 := by
      have : buildEntries ((t62, EmvVal.comp []) :: l2)
          = (t62 ++ padLen (buildValue (EmvVal.comp [])).length
              ++ buildValue (EmvVal.comp [])) ++ buildEntries l2 := by
        simp [buildEntries, List.append_assoc]
      rw [this]
      congr 1
    rw [hemit]
    simp [List.append_assoc]

/-- Witness for C10: with the empty base payload (no tag `62`), the
    mutated tree carries an empty Composite at `62` and the payload
    contains `"6200"`. -/
theorem generateDynamic_forces_62_witness :
    emvLookup (dynamicTree [] (dynamicAmountStr 15000) none) t62 = some (EmvVal.comp []) ∧
    ∃ preQ postQ, generateDynamicQRISPayload 1 [] 15000 none
      = some (preQ ++ strUnits "6200" ++ postQ) :=
  (generateDynamic_forces_62 1 [] [] 15000 (by decide)).2 (Or.inl rfl)
